/-
Verification of the ksynth-midi-renderer core against its design document.

The development shallowly embeds the two core components of the repository:

* `Limiter` and its per-sample update loop (src/limiter.rs, `Limiter::process`);
  the per-sample arithmetic is modelled over `ℚ` (an exact model of the f32
  arithmetic structure), and the construction-time validation and coefficient
  formulas (`Limiter::new`) are modelled over `ℝ`, where `10^x` and `exp` live.
* `MultiSynth`, the polyphonic voice-distribution scheduler
  (src/multi_synth.rs): capacity partitioning (`build_synths`), the note
  routing table (`note_map`, a hash map from `NoteKey` to a single engine
  slot index, modelled as a key-unique association list), note-on slot
  selection (the `filter`/`min_by_key` iterator chain in `note_on`),
  note-off handling, command decoding (`queue_midi_cmd`), and the two
  rebuild operations (`set_max_polyphony`, `set_num_instances`).

The engine instances themselves (`KSynth`) are external black boxes: the
model records, for each scheduler operation, the list of `(slot index,
command)` pairs forwarded to the engines instead of mutating engine state.
-/
import Mathlib

/-! ## Limiter: per-sample processing state (src/limiter.rs)

The Rust `Limiter` struct also stores `sample_rate` and `threshold_db`, which
are never read by `process`; the processing model keeps exactly the five
fields `process` uses.  f32 arithmetic is modelled exactly over `ℚ`. -/

structure Limiter where
  threshold : ℚ
  release_coef : ℚ
  lookahead_coef : ℚ
  peak_envelope : ℚ
  smoothed_gain : ℚ
deriving DecidableEq, Inhabited

/-- One iteration of the loop body of `Limiter::process` (src/limiter.rs,
lines 39-67): decay-and-raise the peak envelope, compute the instantaneous
gain, snap down or ease up the smoothed gain, scale the sample. -/
def Limiter.process_sample (l : Limiter) (s : ℚ) : Limiter × ℚ :=
  let abs_sample := |s|
  let pe0 := l.peak_envelope * l.lookahead_coef
  let pe := if abs_sample > pe0 then abs_sample else pe0
  let inst_gain := if pe ≤ l.threshold then 1 else l.threshold / pe
  let g :=
    if inst_gain < l.smoothed_gain then inst_gain
    else l.release_coef * l.smoothed_gain + (1 - l.release_coef) * inst_gain
  ({ l with peak_envelope := pe, smoothed_gain := g }, s * g)

/-- `Limiter::process` over a whole buffer: thread the limiter state through
the samples in order, producing the in-place-updated buffer. -/
def Limiter.process (l : Limiter) : List ℚ → Limiter × List ℚ
  | [] => (l, [])
  | s :: rest =>
      let r := l.process_sample s
      let r2 := r.1.process rest
      (r2.1, r.2 :: r2.2)

/-- The per-sample limiter update exactly as §4.2 of the design document
states it, written with `max` for the fast-rising envelope, for comparison
with the source-derived `Limiter.process_sample`. -/
def limiter_doc_step (l : Limiter) (s : ℚ) : Limiter × ℚ :=
  let pe := max (l.peak_envelope * l.lookahead_coef) |s|
  let target := if pe ≤ l.threshold then 1 else l.threshold / pe
  let g :=
    if target < l.smoothed_gain then target
    else l.release_coef * l.smoothed_gain + (1 - l.release_coef) * target
  ({ l with peak_envelope := pe, smoothed_gain := g }, s * g)

/-! ## Limiter construction (src/limiter.rs, `Limiter::new`)

Modelled over `ℝ`.  The three `assert!` calls are modelled as the failure
(`none`) branch; note that `Limiter::new` contains no assertion on
`sample_rate`. -/

structure LimiterCfg where
  sample_rate : ℝ
  threshold_db : ℝ
  threshold : ℝ
  release_coef : ℝ
  lookahead_coef : ℝ
  peak_envelope : ℝ
  smoothed_gain : ℝ

/-- `Limiter::new` (src/limiter.rs, lines 13-36).  A failed `assert!`
(panic, preventing instantiation) is modelled as `none`. -/
noncomputable def limiter_new (sample_rate threshold_db release_time_ms lookahead_ms : ℝ) :
    Option LimiterCfg :=
  if threshold_db ≤ 0 ∧ release_time_ms > 0 ∧ lookahead_ms > 0 then
    some
      { sample_rate := sample_rate
        threshold_db := threshold_db
        threshold := (10 : ℝ) ^ (threshold_db / 20)
        release_coef := Real.exp (-1 / (release_time_ms / 1000 * sample_rate))
        lookahead_coef := Real.exp (-1 / (lookahead_ms / 1000 * sample_rate))
        peak_envelope := 0
        smoothed_gain := 1 }
  else none

/-! ## Theorems about the limiter step (claims C6 and C9 groundwork) -/

theorem process_sample_eq_doc_step (l : Limiter) (s : ℚ) :
    l.process_sample s = limiter_doc_step l s := by
  unfold Limiter.process_sample limiter_doc_step
  rcases lt_trichotomy (l.peak_envelope * l.lookahead_coef) |s| with h | h | h
  · simp [max_eq_right h.le, if_pos h]
  · simp [h, max_self]
  · simp [max_eq_left h.le, if_neg (not_lt.mpr h.le)]

theorem process_sample_zero (l : Limiter) : (l.process_sample 0).2 = 0 := by
  simp [Limiter.process_sample]

/-! ## Per-channel limiter application (src/main.rs, lines 571-576)

The renderer loop applies limiter `i` to the *contiguous suffix*
`&mut synth_buffer[i..]` of the interleaved buffer. -/

/-- `.iter().enumerate()` over a list, indices starting at `n`. -/
def enum_counts {α : Type} : ℕ → List α → List (ℕ × α)
  | _, [] => []
  | n, c :: rest => (n, c) :: enum_counts (n + 1) rest

/-- The limiter-application loop of `main` (src/main.rs, lines 571-576):
`for (i, limiter) in limiters.iter_mut().enumerate()
   { limiter.process(&mut synth_buffer[i..]); }`,
i.e. limiter `i` processes, in place, every sample from position `i` on. -/
def apply_limiters (limiters : List Limiter) (buffer : List ℚ) : List ℚ :=
  (enum_counts 0 limiters).foldl
    (fun buf p => buf.take p.1 ++ (p.2.process (buf.drop p.1)).2) buffer

/-- Modelled from the spec: the intended per-channel contract (§4.2, §9) —
channel `i` of a `C`-channel interleaved buffer is the strided subsequence
at positions `i, i+C, i+2C, …`, in order. -/
def strided_channel (buffer : List ℚ) (c i : ℕ) : List ℚ :=
  ((enum_counts 0 buffer).filter (fun p => decide (p.1 % c = i))).map Prod.snd

/-- Modelled from the spec: each channel's limiter instance consumes exactly
its own strided samples (§9: "implement via an explicit strided accessor,
not a raw offset slice"); sample `j` of the output is sample `j / C` of the
limited channel `j % C`, where `C` is the channel count. -/
def apply_limiters_strided (limiters : List Limiter) (buffer : List ℚ) : List ℚ :=
  (enum_counts 0 buffer).map (fun p =>
    ((limiters.getD (p.1 % limiters.length) default).process
        (strided_channel buffer limiters.length (p.1 % limiters.length))).2.getD
      (p.1 / limiters.length) 0)

/-! ## Voice scheduler: data model (src/multi_synth.rs)

`NoteKey` and the bookkeeping fields of `MultiSynth`.  The `KSynth` engine
vector is external; the model keeps its length implicitly equal to
`max_voices.length` (the source constructs `synths` and `filtered_max_voices`
together, one entry each per surviving instance) and records commands
forwarded to engine `i` as pairs `(i, cmd)`.  The `sample_rate`,
`num_channel`, `fade_out_sample` and `sample_map` fields only parametrise
engine construction and are omitted; `drum_kit_storage : Option<DrumKit>` is
modelled by its presence bit. `num_cpus::get()` is modelled by the field
`max_threads`. -/

structure NoteKey where
  channel : ℕ
  note : ℕ
deriving DecidableEq

structure MultiSynth where
  note_map : List (NoteKey × ℕ)
  note_counts : List ℕ
  max_voices : List ℕ
  drum_kit_storage : Bool
  max_total_voices : ℕ
  max_threads : ℕ
deriving DecidableEq

/-! ### Association-list model of `HashMap<NoteKey, usize>` -/

/-- `HashMap::get`. -/
def lookupK : List (NoteKey × ℕ) → NoteKey → Option ℕ
  | [], _ => none
  | (k', v) :: rest, k => if k' = k then some v else lookupK rest k

/-- `HashMap::remove` (the remaining entries): drop the entry for `k`;
keys are unique in any reachable map, so removing the first match suffices. -/
def removeK : List (NoteKey × ℕ) → NoteKey → List (NoteKey × ℕ)
  | [], _ => []
  | (k', v) :: rest, k => if k' = k then rest else (k', v) :: removeK rest k

/-- `HashMap::insert`: bind `k` to `v`, replacing any existing binding. -/
def insertK (m : List (NoteKey × ℕ)) (k : NoteKey) (v : ℕ) : List (NoteKey × ℕ) :=
  (k, v) :: removeK m k

/-- Number of map entries currently routed to engine slot `i`. -/
def countIdx (m : List (NoteKey × ℕ)) (i : ℕ) : ℕ :=
  (m.filter (fun p => decide (p.2 = i))).length

/-! ### List index update helpers (for `note_counts[i] += 1` etc.) -/

/-- `self.note_counts[idx] += 1`. -/
def incAt (l : List ℕ) (i : ℕ) : List ℕ := l.set i (l.getD i 0 + 1)

/-- `if self.note_counts[idx] > 0 { self.note_counts[idx] -= 1 }`. -/
def decGuardAt (l : List ℕ) (i : ℕ) : List ℕ :=
  if 0 < l.getD i 0 then l.set i (l.getD i 0 - 1) else l

/-! ### Capacity partitioning (`MultiSynth::build_synths`, lines 30-79) -/

/-- The instance-count clamp at the top of `build_synths`: first to
`num_cpus::get()`, then up to 1. -/
def clamp_instances (num_instances max_threads : ℕ) : ℕ :=
  let n1 := if num_instances > max_threads then max_threads else num_instances
  if n1 = 0 then 1 else n1

/-- The per-instance voice counts before filtering:
`vec![max_total_voices / n; n]`, then `+= 1` for the first
`max_total_voices % n` entries. -/
def raw_voices (max_total_voices n : ℕ) : List ℕ :=
  (List.range n).map (fun i =>
    if i < max_total_voices % n then max_total_voices / n + 1 else max_total_voices / n)

/-- `MultiSynth::build_synths`, reduced to the capacity list it realizes:
instances whose assigned voice count is `0` are not constructed
(`if voices > 0`), so only the positive capacities survive. -/
def build_synths (max_total_voices num_instances max_threads : ℕ) : List ℕ :=
  (raw_voices max_total_voices (clamp_instances num_instances max_threads)).filter
    (fun v => decide (0 < v))

/-- `MultiSynth::new` (bookkeeping fields): capacities from `build_synths`,
all load counters zero, empty routing table. -/
def MultiSynth.mkNew (max_total_voices num_instances max_threads : ℕ) (has_drum : Bool) :
    MultiSynth :=
  let caps := build_synths max_total_voices num_instances max_threads
  { note_map := []
    note_counts := List.replicate caps.length 0
    max_voices := caps
    drum_kit_storage := has_drum
    max_total_voices := max_total_voices
    max_threads := max_threads }

/-! ### Note-on slot selection (`note_on`, lines 168-174)

`self.note_counts.iter().enumerate()
    .filter(|&(i, &count)| count < self.max_voices[i])
    .min_by_key(|&(_, &count)| count)`
Rust's `min_by_key` returns the first of several equally minimal elements. -/

/-- One comparison step of `min_by_key`: keep the accumulator unless the new
element is strictly smaller, so the first minimum wins. -/
def pick_step (b y : ℕ × ℕ) : ℕ × ℕ := if y.2 < b.2 then y else b

/-- `min_by_key` over `(index, count)` pairs. -/
def pick_min : List (ℕ × ℕ) → Option (ℕ × ℕ)
  | [] => none
  | x :: xs => some (xs.foldl pick_step x)

/-- The `enumerate().filter(...)` stage: `(index, count)` pairs of slots with
load strictly below capacity. -/
def eligible_list (counts max_voices : List ℕ) : List (ℕ × ℕ) :=
  (enum_counts 0 counts).filter (fun p => decide (p.2 < max_voices.getD p.1 0))

/-- The whole slot-selection chain of `note_on`. -/
def find_slot (counts max_voices : List ℕ) : Option ℕ :=
  (pick_min (eligible_list counts max_voices)).map Prod.fst

/-! ### Scheduler operations -/

/-- The synthesized note-off command
`(0x80 | channel) as u32 | ((note as u32) << 8) | (0 << 16)`. -/
def note_off_cmd (channel note : ℕ) : ℕ := (0x80 ||| channel) ||| (note <<< 8)

/-- `MultiSynth::note_on` (lines 157-179).  Returns the updated bookkeeping
state and the `(slot, command)` pairs forwarded to engines, in order: first
the synthesized note-off to the previously recorded slot (if the key is
already sounding), then the admitted command (if an eligible slot exists). -/
def MultiSynth.note_on (st : MultiSynth) (channel note cmd : ℕ) :
    MultiSynth × List (ℕ × ℕ) :=
  let note_key : NoteKey := ⟨channel, note⟩
  let pre : MultiSynth × List (ℕ × ℕ) :=
    match lookupK st.note_map note_key with
    | some old_idx =>
        ({ st with note_counts := decGuardAt st.note_counts old_idx },
         [(old_idx, note_off_cmd channel note)])
    | none => (st, [])
  match find_slot pre.1.note_counts pre.1.max_voices with
  | some idx =>
      ({ pre.1 with
          note_map := insertK pre.1.note_map note_key idx
          note_counts := incAt pre.1.note_counts idx },
       pre.2 ++ [(idx, cmd)])
  | none => (pre.1, pre.2)

/-- `MultiSynth::note_off` (lines 181-190). -/
def MultiSynth.note_off (st : MultiSynth) (channel note cmd : ℕ) :
    MultiSynth × List (ℕ × ℕ) :=
  let note_key : NoteKey := ⟨channel, note⟩
  match lookupK st.note_map note_key with
  | some idx =>
      ({ st with
          note_map := removeK st.note_map note_key
          note_counts := decGuardAt st.note_counts idx },
       [(idx, cmd)])
  | none => (st, [])

/-- `MultiSynth::queue_midi_cmd` (lines 116-155).  Bit-field decoding is
written with `/` and `%` (`cmd & 0xFF = cmd % 256`, `(cmd >> 8) & 0xFF =
cmd / 256 % 256`, `status & 0x0F = status % 16`,
`status & 0xF0 = 16 * (status / 16)`). -/
def MultiSynth.queue_midi_cmd (st : MultiSynth) (cmd : ℕ) :
    MultiSynth × List (ℕ × ℕ) :=
  let status := cmd % 256
  let note := cmd / 256 % 256
  let velocity := cmd / 65536 % 256
  let channel := status % 16
  let status_nibble := 16 * (status / 16)
  if channel = 9 ∧ st.drum_kit_storage = true then
    -- both velocity branches of the drum-channel 0x90 arm forward `cmd` to
    -- instance 0, as does the 0x80 arm
    if status_nibble = 0x90 ∨ status_nibble = 0x80 then (st, [(0, cmd)])
    else (st, [])
  else
    if status_nibble = 0x90 then
      if velocity = 0 then st.note_off channel note cmd
      else st.note_on channel note cmd
    else if status_nibble = 0x80 then st.note_off channel note cmd
    else if 0xA0 ≤ status_nibble ∧ status_nibble ≤ 0xEF then
      (st, (List.range st.max_voices.length).map (fun i => (i, cmd)))
    else (st, [])

/-- `MultiSynth::fill_buffer` (lines 192-210) renders each engine into a
private buffer and sums them; it reads and writes no bookkeeping field
(`note_map`, `note_counts`, `max_voices`), so on the modelled state it is
the identity. -/
def MultiSynth.fill_buffer (st : MultiSynth) : MultiSynth := st

/-- `MultiSynth::set_max_polyphony` (lines 230-256): flush a synthesized
note-off for every routed key (guarded by `idx < self.synths.len()`),
rebuild capacities with the current instance count as the request, clear the
table and zero the loads. -/
def MultiSynth.set_max_polyphony (st : MultiSynth) (v : ℕ) : MultiSynth × List (ℕ × ℕ) :=
  let flush := st.note_map.filterMap (fun p =>
    if p.2 < st.max_voices.length then some (p.2, note_off_cmd p.1.channel p.1.note)
    else none)
  let caps := build_synths v st.max_voices.length st.max_threads
  ({ st with
      max_total_voices := v
      note_map := []
      note_counts := List.replicate caps.length 0
      max_voices := caps },
   flush)

/-- `MultiSynth::set_num_instances` (lines 262-286): same flush, rebuild with
the stored voice budget and the newly requested instance count. -/
def MultiSynth.set_num_instances (st : MultiSynth) (n : ℕ) : MultiSynth × List (ℕ × ℕ) :=
  let flush := st.note_map.filterMap (fun p =>
    if p.2 < st.max_voices.length then some (p.2, note_off_cmd p.1.channel p.1.note)
    else none)
  let caps := build_synths st.max_total_voices n st.max_threads
  ({ st with
      note_map := []
      note_counts := List.replicate caps.length 0
      max_voices := caps },
   flush)

/-- Run a list of raw commands through `queue_midi_cmd`, collecting every
`(slot, command)` pair forwarded to the engines, in order. -/
def run_cmds (st : MultiSynth) (cmds : List ℕ) : MultiSynth × List (ℕ × ℕ) :=
  cmds.foldl (fun acc c =>
    let r := MultiSynth.queue_midi_cmd acc.1 c
    (r.1, acc.2 ++ r.2)) (st, [])

/-! ## Library-style helper lemmas for the list operations -/

theorem getD_set_self (l : List ℕ) (i a : ℕ) (h : i < l.length) :
    (l.set i a).getD i 0 = a := by
  simp [List.getD_eq_getElem?_getD, List.getElem?_set_self, h]

theorem getD_set_ne (l : List ℕ) (i j a : ℕ) (h : i ≠ j) :
    (l.set i a).getD j 0 = l.getD j 0 := by
  simp [List.getD_eq_getElem?_getD, List.getElem?_set_ne h]

theorem getD_replicate_zero (n i : ℕ) : (List.replicate n (0 : ℕ)).getD i 0 = 0 := by
  induction n generalizing i with
  | zero => simp [List.getD]
  | succ m ih => cases i <;> simp [List.replicate, List.getD, ih]

theorem length_incAt (l : List ℕ) (i : ℕ) : (incAt l i).length = l.length := by
  simp [incAt]

theorem length_decGuardAt (l : List ℕ) (i : ℕ) : (decGuardAt l i).length = l.length := by
  unfold decGuardAt
  split <;> simp

theorem getD_incAt_self (l : List ℕ) (i : ℕ) (h : i < l.length) :
    (incAt l i).getD i 0 = l.getD i 0 + 1 := by
  unfold incAt
  exact getD_set_self _ _ _ h

theorem getD_incAt_ne (l : List ℕ) (i j : ℕ) (h : i ≠ j) :
    (incAt l i).getD j 0 = l.getD j 0 := by
  unfold incAt
  exact getD_set_ne _ _ _ _ h

theorem getD_decGuardAt_self (l : List ℕ) (i : ℕ) (h : i < l.length) :
    (decGuardAt l i).getD i 0 = l.getD i 0 - 1 := by
  by_cases hpos : 0 < l.getD i 0
  · rw [decGuardAt, if_pos hpos]
    exact getD_set_self _ _ _ h
  · rw [decGuardAt, if_neg hpos]
    omega

theorem getD_decGuardAt_ne (l : List ℕ) (i j : ℕ) (h : i ≠ j) :
    (decGuardAt l i).getD j 0 = l.getD j 0 := by
  by_cases hpos : 0 < l.getD i 0
  · rw [decGuardAt, if_pos hpos]
    exact getD_set_ne _ _ _ _ h
  · rw [decGuardAt, if_neg hpos]

/-! ### Association-list lemmas -/

/-- Key-uniqueness predicate for the routing table. -/
def NodupKeys (m : List (NoteKey × ℕ)) : Prop :=
  m.Pairwise (fun a b => a.1 ≠ b.1)

instance nodupKeys_decidable (m : List (NoteKey × ℕ)) : Decidable (NodupKeys m) :=
  inferInstanceAs (Decidable
    (m.Pairwise (fun a b : NoteKey × ℕ => a.1 ≠ b.1)))

theorem lookupK_mem {m : List (NoteKey × ℕ)} {k : NoteKey} {v : ℕ}
    (h : lookupK m k = some v) : (k, v) ∈ m := by
  induction m with
  | nil => simp [lookupK] at h
  | cons p rest ih =>
      obtain ⟨k', v'⟩ := p
      by_cases hk : k' = k
      · subst hk
        simp [lookupK] at h
        simp [h]
      · simp [lookupK, hk] at h
        exact List.mem_cons_of_mem _ (ih h)

theorem lookupK_eq_none {m : List (NoteKey × ℕ)} {k : NoteKey}
    (h : ∀ p ∈ m, p.1 ≠ k) : lookupK m k = none := by
  induction m with
  | nil => rfl
  | cons p rest ih =>
      obtain ⟨k', v'⟩ := p
      have hk : k' ≠ k := h (k', v') (List.mem_cons_self _ _)
      simp only [lookupK, if_neg hk]
      exact ih (fun q hq => h q (List.mem_cons_of_mem _ hq))

theorem mem_removeK {m : List (NoteKey × ℕ)} {k : NoteKey} {p : NoteKey × ℕ}
    (h : p ∈ removeK m k) : p ∈ m := by
  induction m with
  | nil => simp [removeK] at h
  | cons q rest ih =>
      obtain ⟨k', v'⟩ := q
      by_cases hk : k' = k
      · simp only [removeK, if_pos hk] at h
        exact List.mem_cons_of_mem _ h
      · simp only [removeK, if_neg hk] at h
        rcases List.mem_cons.mp h with h | h
        · simp [h]
        · exact List.mem_cons_of_mem _ (ih h)

theorem removeK_eq_of_none {m : List (NoteKey × ℕ)} {k : NoteKey}
    (h : lookupK m k = none) : removeK m k = m := by
  induction m with
  | nil => rfl
  | cons p rest ih =>
      obtain ⟨k', v'⟩ := p
      by_cases hk : k' = k
      · simp [lookupK, hk] at h
      · simp only [lookupK, if_neg hk] at h
        simp [removeK, if_neg hk, ih h]

theorem nodupKeys_removeK {m : List (NoteKey × ℕ)} (k : NoteKey)
    (h : NodupKeys m) : NodupKeys (removeK m k) := by
  induction m with
  | nil => exact h
  | cons p rest ih =>
      obtain ⟨k', v'⟩ := p
      rw [NodupKeys, List.pairwise_cons] at h
      by_cases hk : k' = k
      · simpa [removeK, hk] using h.2
      · rw [NodupKeys, removeK, if_neg hk, List.pairwise_cons]
        exact ⟨fun q hq => h.1 q (mem_removeK hq), ih h.2⟩

theorem not_mem_key_removeK {m : List (NoteKey × ℕ)} {k : NoteKey}
    (h : NodupKeys m) : ∀ p ∈ removeK m k, p.1 ≠ k := by
  induction m with
  | nil => simp [removeK]
  | cons q rest ih =>
      obtain ⟨k', v'⟩ := q
      rw [NodupKeys, List.pairwise_cons] at h
      by_cases hk : k' = k
      · subst hk
        simp only [removeK, if_pos rfl]
        intro p hp
        exact fun he => (h.1 p hp) he.symm
      · simp only [removeK, if_neg hk]
        intro p hp
        rcases List.mem_cons.mp hp with hp | hp
        · simpa [hp] using hk
        · exact ih h.2 p hp

theorem nodupKeys_insertK {m : List (NoteKey × ℕ)} (k : NoteKey) (v : ℕ)
    (h : NodupKeys m) : NodupKeys (insertK m k v) := by
  rw [NodupKeys, insertK, List.pairwise_cons]
  exact ⟨fun p hp => fun he => (not_mem_key_removeK h p hp) he.symm,
    nodupKeys_removeK k h⟩

theorem lookupK_removeK_self {m : List (NoteKey × ℕ)} {k : NoteKey}
    (h : NodupKeys m) : lookupK (removeK m k) k = none :=
  lookupK_eq_none (not_mem_key_removeK h)

theorem lookupK_removeK_ne (m : List (NoteKey × ℕ)) (k k' : NoteKey)
    (h : k ≠ k') : lookupK (removeK m k') k = lookupK m k := by
  induction m with
  | nil => rfl
  | cons p rest ih =>
      obtain ⟨k0, v0⟩ := p
      by_cases hk : k0 = k'
      · subst hk
        have hne : ¬ k0 = k := fun he => h (he.symm.trans rfl)
        simp [removeK, lookupK, hne]
      · by_cases hk2 : k0 = k
        · rw [removeK, if_neg hk, lookupK, if_pos hk2, lookupK, if_pos hk2]
        · rw [removeK, if_neg hk, lookupK, if_neg hk2, lookupK, if_neg hk2]
          exact ih

theorem lookupK_insertK_self (m : List (NoteKey × ℕ)) (k : NoteKey) (v : ℕ) :
    lookupK (insertK m k v) k = some v := by
  simp [insertK, lookupK]

theorem lookupK_insertK_ne (m : List (NoteKey × ℕ)) (k k' : NoteKey) (v : ℕ)
    (h : k ≠ k') : lookupK (insertK m k' v) k = lookupK m k := by
  have : ¬ k' = k := fun he => h he.symm
  simp [insertK, lookupK, this, lookupK_removeK_ne m k k' h]

theorem countIdx_cons (p : NoteKey × ℕ) (m : List (NoteKey × ℕ)) (i : ℕ) :
    countIdx (p :: m) i = countIdx m i + (if p.2 = i then 1 else 0) := by
  by_cases h : p.2 = i <;> simp [countIdx, List.filter, h]

theorem countIdx_pos_of_mem {m : List (NoteKey × ℕ)} {p : NoteKey × ℕ}
    (h : p ∈ m) : 0 < countIdx m p.2 := by
  induction m with
  | nil => simp at h
  | cons q rest ih =>
      rcases List.mem_cons.mp h with h | h
      · simp [countIdx_cons, h]
      · have := ih h
        rw [countIdx_cons]
        omega

theorem countIdx_removeK {m : List (NoteKey × ℕ)} {k : NoteKey} {v : ℕ}
    (hnd : NodupKeys m) (h : lookupK m k = some v) (i : ℕ) :
    countIdx m i = countIdx (removeK m k) i + (if v = i then 1 else 0) := by
  induction m with
  | nil => simp [lookupK] at h
  | cons p rest ih =>
      obtain ⟨k', v'⟩ := p
      rw [NodupKeys, List.pairwise_cons] at hnd
      by_cases hk : k' = k
      · simp only [lookupK, if_pos hk] at h
        obtain rfl : v' = v := by injection h
        simp [removeK, if_pos hk, countIdx_cons]
      · simp only [lookupK, if_neg hk] at h
        rw [removeK, if_neg hk, countIdx_cons, countIdx_cons, ih hnd.2 h]
        omega

/-! ### Characterization of the `note_on` slot selection

The spec side of the refinement: "select the engine slot with the lowest
current load among slots with load strictly below capacity; ties broken by
lowest slot index" (§4.1). -/

/-- An eligible slot in the spec's words: load strictly below capacity. -/
def eligible_slot (counts max_voices : List ℕ) (j : ℕ) : Prop :=
  j < counts.length ∧ counts.getD j 0 < max_voices.getD j 0

/-- The slot the spec says must be chosen: eligible, of minimal load, and of
minimal index among eligible slots with that load. -/
def chosen_slot (counts max_voices : List ℕ) (i : ℕ) : Prop :=
  eligible_slot counts max_voices i ∧
    ∀ j, eligible_slot counts max_voices j →
      counts.getD i 0 < counts.getD j 0 ∨
        (counts.getD i 0 = counts.getD j 0 ∧ i ≤ j)

/-- Lexicographic order on `(index, count)` pairs, count first. -/
def lexLE (a b : ℕ × ℕ) : Prop :=
  a.2 < b.2 ∨ (a.2 = b.2 ∧ a.1 ≤ b.1)

theorem lexLE_refl (a : ℕ × ℕ) : lexLE a a := Or.inr ⟨rfl, le_refl _⟩

theorem lexLE_trans {a b c : ℕ × ℕ} (h1 : lexLE a b) (h2 : lexLE b c) :
    lexLE a c := by
  rcases h1 with h1 | h1 <;> rcases h2 with h2 | h2 <;>
    [left; left; left; right] <;> omega

theorem foldl_pick_step_mem (xs : List (ℕ × ℕ)) (x : ℕ × ℕ) :
    xs.foldl pick_step x = x ∨ xs.foldl pick_step x ∈ xs := by
  induction xs generalizing x with
  | nil => left; rfl
  | cons y rest ih =>
      rcases ih (pick_step x y) with h | h
      · rw [List.foldl_cons, h]
        unfold pick_step
        split
        · right; exact List.mem_cons_self _ _
        · left; rfl
      · right
        exact List.mem_cons_of_mem _ h

theorem foldl_pick_step_min (xs : List (ℕ × ℕ)) (x : ℕ × ℕ)
    (hs : (x :: xs).Pairwise (fun a b => a.1 < b.1)) :
    ∀ y, y = x ∨ y ∈ xs → lexLE (xs.foldl pick_step x) y := by
  induction xs generalizing x with
  | nil =>
      intro y hy
      rcases hy with hy | hy
      · rw [List.foldl_nil, hy]
        exact lexLE_refl x
      · simp at hy
  | cons z rest ih =>
      rw [List.pairwise_cons] at hs
      have hxz : x.1 < z.1 := hs.1 z (List.mem_cons_self _ _)
      have hs2 : (z :: rest).Pairwise (fun a b => a.1 < b.1) := hs.2
      rw [List.pairwise_cons] at hs2
      have hstep : (pick_step x z :: rest).Pairwise (fun a b => a.1 < b.1) := by
        rw [List.pairwise_cons]
        constructor
        · intro a ha
          unfold pick_step
          split
          · exact hs2.1 a ha
          · exact hs.1 a (List.mem_cons_of_mem _ ha)
        · exact hs2.2
      -- `lexLE (pick_step x z) d` for the discarded element `d`
      have hdisc : lexLE (pick_step x z) x ∧ lexLE (pick_step x z) z := by
        unfold pick_step
        by_cases hlt : z.2 < x.2
        · rw [if_pos hlt]
          exact ⟨Or.inl hlt, lexLE_refl z⟩
        · rw [if_neg hlt]
          refine ⟨lexLE_refl x, ?_⟩
          rcases lt_or_eq_of_le (not_lt.mp hlt) with h | h
          · exact Or.inl h
          · exact Or.inr ⟨h, le_of_lt hxz⟩
      intro y hy
      have hmin := ih (pick_step x z) hstep
      rcases hy with rfl | hy
      · exact lexLE_trans (hmin _ (Or.inl rfl)) hdisc.1
      · rcases List.mem_cons.mp hy with rfl | hy
        · exact lexLE_trans (hmin _ (Or.inl rfl)) hdisc.2
        · exact hmin y (Or.inr hy)

theorem mem_enum_counts {l : List ℕ} :
    ∀ {n : ℕ} {p : ℕ × ℕ}, p ∈ enum_counts n l ↔
      (n ≤ p.1 ∧ p.1 - n < l.length ∧ l.getD (p.1 - n) 0 = p.2) := by
  induction l with
  | nil => intro n p; simp [enum_counts]
  | cons c rest ih =>
      intro n p
      rw [enum_counts, List.mem_cons, ih]
      constructor
      · rintro (rfl | ⟨h1, h2, h3⟩)
        · simp [List.getD]
        · refine ⟨by omega, by simp; omega, ?_⟩
          have : p.1 - n = (p.1 - (n + 1)) + 1 := by omega
          rw [this]
          simpa [List.getD] using h3
      · rintro ⟨h1, h2, h3⟩
        rcases Nat.eq_or_lt_of_le h1 with rfl | hlt
        · left
          simp [List.getD] at h3
          obtain ⟨a, b⟩ := p
          simp at h3 ⊢
          omega
        · right
          refine ⟨by omega, by simp at h2; omega, ?_⟩
          have : p.1 - n = (p.1 - (n + 1)) + 1 := by omega
          rw [this] at h3
          simpa [List.getD] using h3

theorem enum_counts_sorted (l : List ℕ) :
    ∀ n, (enum_counts n l).Pairwise (fun a b => a.1 < b.1) := by
  induction l with
  | nil => intro n; simp [enum_counts]
  | cons c rest ih =>
      intro n
      rw [enum_counts, List.pairwise_cons]
      refine ⟨?_, ih (n + 1)⟩
      intro p hp
      have := (mem_enum_counts.mp hp).1
      omega

theorem mem_eligible_list {counts max_voices : List ℕ} {p : ℕ × ℕ} :
    p ∈ eligible_list counts max_voices ↔
      (p.1 < counts.length ∧ counts.getD p.1 0 = p.2 ∧
        p.2 < max_voices.getD p.1 0) := by
  rw [eligible_list, List.mem_filter, mem_enum_counts, decide_eq_true_eq]
  simp only [Nat.sub_zero, Nat.zero_le, true_and]
  tauto

theorem eligible_list_sorted (counts max_voices : List ℕ) :
    (eligible_list counts max_voices).Pairwise (fun a b => a.1 < b.1) :=
  List.Pairwise.filter _ (enum_counts_sorted counts 0)

/-- Soundness of the selection chain: a returned slot is eligible and is the
lowest-index slot of lowest load. -/
theorem find_slot_sound {counts max_voices : List ℕ} {i : ℕ}
    (h : find_slot counts max_voices = some i) :
    chosen_slot counts max_voices i := by
  rw [find_slot] at h
  cases hp : pick_min (eligible_list counts max_voices) with
  | none => rw [hp] at h; simp at h
  | some r =>
      rw [hp] at h
      simp at h
      subst h
      cases hel : eligible_list counts max_voices with
      | nil => rw [hel] at hp; simp [pick_min] at hp
      | cons x xs =>
          rw [hel] at hp
          simp only [pick_min, Option.some_inj] at hp
          have hsorted := eligible_list_sorted counts max_voices
          rw [hel] at hsorted
          have hmem : r = x ∨ r ∈ xs := by
            rw [← hp]; exact foldl_pick_step_mem xs x
          have hrmem : r ∈ eligible_list counts max_voices := by
            rw [hel]
            rcases hmem with rfl | hm
            · exact List.mem_cons_self _ _
            · exact List.mem_cons_of_mem _ hm
          have hre := mem_eligible_list.mp hrmem
          constructor
          · exact ⟨hre.1, by rw [hre.2.1]; exact hre.2.2⟩
          · intro j hj
            have hje : (j, counts.getD j 0) ∈ eligible_list counts max_voices :=
              mem_eligible_list.mpr ⟨hj.1, rfl, hj.2⟩
            rw [hel] at hje
            have hlex : lexLE r (j, counts.getD j 0) := by
              rw [← hp]
              exact foldl_pick_step_min xs x hsorted _ (List.mem_cons.mp hje)
            rw [lexLE] at hlex
            rw [hre.2.1]
            rcases hlex with hlex | hlex
            · left; exact hlex
            · right; exact ⟨hlex.1, hlex.2⟩

/-- Completeness: if any slot is eligible, the chain returns a slot. -/
theorem find_slot_isSome {counts max_voices : List ℕ} {j : ℕ}
    (h : eligible_slot counts max_voices j) :
    (find_slot counts max_voices).isSome = true := by
  have hje : (j, counts.getD j 0) ∈ eligible_list counts max_voices :=
    mem_eligible_list.mpr ⟨h.1, rfl, h.2⟩
  rw [find_slot]
  cases hel : eligible_list counts max_voices with
  | nil => rw [hel] at hje; simp at hje
  | cons x xs => simp [pick_min]

/-- If no slot is eligible, nothing is selected. -/
theorem find_slot_none {counts max_voices : List ℕ}
    (h : ∀ j, ¬ eligible_slot counts max_voices j) :
    find_slot counts max_voices = none := by
  have : eligible_list counts max_voices = [] := by
    cases hel : eligible_list counts max_voices with
    | nil => rfl
    | cons x xs =>
        exfalso
        have hx : x ∈ eligible_list counts max_voices := by
          rw [hel]; exact List.mem_cons_self _ _
        have := mem_eligible_list.mp hx
        exact h x.1 ⟨this.1, by rw [this.2.1]; exact this.2.2⟩
  rw [find_slot, this]
  rfl

/-! ### The scheduler bookkeeping invariant

`SchedInv` is the full inductive invariant of the routing state: the two
counter vectors have equal length, keys are unique in the table, every
stored slot index is in range, each load counter equals the number of table
entries routed to its slot, and no load exceeds its capacity. -/

def SchedInv (st : MultiSynth) : Prop :=
  st.note_counts.length = st.max_voices.length ∧
  NodupKeys st.note_map ∧
  (∀ p ∈ st.note_map, p.2 < st.note_counts.length) ∧
  (∀ i, i < st.note_counts.length →
    st.note_counts.getD i 0 = countIdx st.note_map i ∧
    st.note_counts.getD i 0 ≤ st.max_voices.getD i 0)

/-! Equation lemmas for `note_on` and `note_off`, one per control path. -/

theorem note_on_absent_none {st : MultiSynth} {channel note : ℕ} (cmd : ℕ)
    (hl : lookupK st.note_map ⟨channel, note⟩ = none)
    (hf : find_slot st.note_counts st.max_voices = none) :
    st.note_on channel note cmd = (st, []) := by
  simp only [MultiSynth.note_on, hl, hf]

theorem note_on_absent_some {st : MultiSynth} {channel note idx : ℕ} (cmd : ℕ)
    (hl : lookupK st.note_map ⟨channel, note⟩ = none)
    (hf : find_slot st.note_counts st.max_voices = some idx) :
    st.note_on channel note cmd =
      ({ st with
          note_map := insertK st.note_map ⟨channel, note⟩ idx
          note_counts := incAt st.note_counts idx },
       [(idx, cmd)]) := by
  simp only [MultiSynth.note_on, hl, hf]
  rfl

theorem note_on_present_none {st : MultiSynth} {channel note old_idx : ℕ} (cmd : ℕ)
    (hl : lookupK st.note_map ⟨channel, note⟩ = some old_idx)
    (hf : find_slot (decGuardAt st.note_counts old_idx) st.max_voices = none) :
    st.note_on channel note cmd =
      ({ st with note_counts := decGuardAt st.note_counts old_idx },
       [(old_idx, note_off_cmd channel note)]) := by
  simp only [MultiSynth.note_on, hl, hf]

theorem note_on_present_some {st : MultiSynth} {channel note old_idx idx : ℕ} (cmd : ℕ)
    (hl : lookupK st.note_map ⟨channel, note⟩ = some old_idx)
    (hf : find_slot (decGuardAt st.note_counts old_idx) st.max_voices = some idx) :
    st.note_on channel note cmd =
      ({ st with
          note_map := insertK st.note_map ⟨channel, note⟩ idx
          note_counts := incAt (decGuardAt st.note_counts old_idx) idx },
       [(old_idx, note_off_cmd channel note), (idx, cmd)]) := by
  simp only [MultiSynth.note_on, hl, hf]
  rfl

theorem note_off_absent {st : MultiSynth} {channel note : ℕ} (cmd : ℕ)
    (hl : lookupK st.note_map ⟨channel, note⟩ = none) :
    st.note_off channel note cmd = (st, []) := by
  simp only [MultiSynth.note_off, hl]

theorem note_off_present {st : MultiSynth} {channel note idx : ℕ} (cmd : ℕ)
    (hl : lookupK st.note_map ⟨channel, note⟩ = some idx) :
    st.note_off channel note cmd =
      ({ st with
          note_map := removeK st.note_map ⟨channel, note⟩
          note_counts := decGuardAt st.note_counts idx },
       [(idx, cmd)]) := by
  simp only [MultiSynth.note_off, hl]

theorem schedInv_note_on (st : MultiSynth) (channel note cmd : ℕ)
    (h : SchedInv st) : SchedInv (st.note_on channel note cmd).1 := by
  obtain ⟨hlen, hnd, hrange, hcnt⟩ := h
  cases hl : lookupK st.note_map ⟨channel, note⟩ with
  | none =>
      cases hf : find_slot st.note_counts st.max_voices with
      | none =>
          rw [note_on_absent_none cmd hl hf]
          exact ⟨hlen, hnd, hrange, hcnt⟩
      | some idx =>
          rw [note_on_absent_some cmd hl hf]
          dsimp only [SchedInv]
          have hch := find_slot_sound hf
          have hidx : idx < st.note_counts.length := hch.1.1
          have hlt : st.note_counts.getD idx 0 < st.max_voices.getD idx 0 := hch.1.2
          have hrem : removeK st.note_map ⟨channel, note⟩ = st.note_map :=
            removeK_eq_of_none hl
          refine ⟨by rw [length_incAt]; exact hlen, nodupKeys_insertK _ _ hnd, ?_, ?_⟩
          · intro p hp
            rw [length_incAt]
            rcases List.mem_cons.mp hp with hp | hp
            · rw [hp]; exact hidx
            · rw [hrem] at hp
              exact hrange p hp
          · intro i hi
            rw [length_incAt] at hi
            have hc := hcnt i hi
            have hcount : countIdx (insertK st.note_map ⟨channel, note⟩ idx) i =
                countIdx st.note_map i + (if idx = i then 1 else 0) := by
              rw [insertK, hrem, countIdx_cons]
            by_cases hii : idx = i
            · subst hii
              have e1 := getD_incAt_self st.note_counts idx hidx
              have e2 : countIdx (insertK st.note_map ⟨channel, note⟩ idx) idx =
                  countIdx st.note_map idx + 1 := by
                rw [hcount, if_pos rfl]
              rw [e1, e2]
              exact ⟨by omega, by omega⟩
            · have e1 := getD_incAt_ne st.note_counts idx i hii
              have e2 : countIdx (insertK st.note_map ⟨channel, note⟩ idx) i =
                  countIdx st.note_map i := by
                rw [hcount, if_neg hii, Nat.add_zero]
              rw [e1, e2]
              exact ⟨hc.1, hc.2⟩
  | some old_idx =>
      have hmem : (⟨channel, note⟩, old_idx) ∈ st.note_map := lookupK_mem hl
      have hold_range : old_idx < st.note_counts.length := hrange _ hmem
      have hold_pos : 0 < st.note_counts.getD old_idx 0 := by
        rw [(hcnt old_idx hold_range).1]
        exact countIdx_pos_of_mem hmem
      have hold_cap : st.note_counts.getD old_idx 0 ≤ st.max_voices.getD old_idx 0 :=
        (hcnt old_idx hold_range).2
      -- after the guarded decrement the old slot is eligible again
      set counts1 := decGuardAt st.note_counts old_idx with hc1
      have hlen1 : counts1.length = st.note_counts.length := length_decGuardAt _ _
      have hold1 : counts1.getD old_idx 0 = st.note_counts.getD old_idx 0 - 1 :=
        getD_decGuardAt_self _ _ hold_range
      have helig : eligible_slot counts1 st.max_voices old_idx := by
        refine ⟨by rw [hlen1]; exact hold_range, ?_⟩
        rw [hold1]
        omega
      have hsome := find_slot_isSome helig
      cases hf : find_slot counts1 st.max_voices with
      | none => rw [hf] at hsome; simp at hsome
      | some idx =>
          rw [note_on_present_some cmd hl hf]
          dsimp only [SchedInv]
          have hch := find_slot_sound hf
          have hidx1 : idx < counts1.length := hch.1.1
          have hidx : idx < st.note_counts.length := by rw [← hlen1]; exact hidx1
          have hlt : counts1.getD idx 0 < st.max_voices.getD idx 0 := hch.1.2
          refine ⟨?_, nodupKeys_insertK _ _ hnd, ?_, ?_⟩
          · rw [length_incAt, hlen1]; exact hlen
          · intro p hp
            rw [length_incAt, hlen1]
            rcases List.mem_cons.mp hp with hp | hp
            · rw [hp]; exact hidx
            · exact hrange p (mem_removeK hp)
          · intro i hi
            rw [length_incAt, hlen1] at hi
            have hc := hcnt i hi
            have hcount : countIdx (insertK st.note_map ⟨channel, note⟩ idx) i =
                countIdx (removeK st.note_map ⟨channel, note⟩) i +
                  (if idx = i then 1 else 0) := by
              rw [insertK, countIdx_cons]
            have hsplit := countIdx_removeK hnd hl i
            have holdc : st.note_counts.getD old_idx 0 = countIdx st.note_map old_idx :=
              (hcnt old_idx hold_range).1
            -- resolve the two index coincidences separately
            by_cases hii : idx = i
            · subst hii
              have e1 := getD_incAt_self counts1 idx hidx1
              rw [e1]
              have c1 : countIdx (insertK st.note_map ⟨channel, note⟩ idx) idx =
                  countIdx (removeK st.note_map ⟨channel, note⟩) idx + 1 := by
                rw [hcount, if_pos rfl]
              by_cases hoi : old_idx = idx
              · have g1 : counts1.getD idx 0 = st.note_counts.getD idx 0 - 1 :=
                  hoi ▸ hold1
                have r1 : countIdx st.note_map idx =
                    countIdx (removeK st.note_map ⟨channel, note⟩) idx + 1 := by
                  rw [hsplit, if_pos hoi]
                have hop : 0 < st.note_counts.getD idx 0 := hoi ▸ hold_pos
                have hcc : st.note_counts.getD idx 0 = countIdx st.note_map idx :=
                  hoi ▸ holdc
                rw [g1, c1]
                exact ⟨by omega, by omega⟩
              · have g1 : counts1.getD idx 0 = st.note_counts.getD idx 0 := by
                  rw [hc1, getD_decGuardAt_ne _ _ _ hoi]
                have r1 : countIdx st.note_map idx =
                    countIdx (removeK st.note_map ⟨channel, note⟩) idx := by
                  rw [hsplit, if_neg hoi, Nat.add_zero]
                rw [g1, c1]
                exact ⟨by omega, by omega⟩
            · have e1 := getD_incAt_ne counts1 idx i hii
              rw [e1]
              have c1 : countIdx (insertK st.note_map ⟨channel, note⟩ idx) i =
                  countIdx (removeK st.note_map ⟨channel, note⟩) i := by
                rw [hcount, if_neg hii, Nat.add_zero]
              by_cases hoi : old_idx = i
              · have g1 : counts1.getD i 0 = st.note_counts.getD i 0 - 1 :=
                  hoi ▸ hold1
                have r1 : countIdx st.note_map i =
                    countIdx (removeK st.note_map ⟨channel, note⟩) i + 1 := by
                  rw [hsplit, if_pos hoi]
                have hop : 0 < st.note_counts.getD i 0 := hoi ▸ hold_pos
                have hcc : st.note_counts.getD i 0 = countIdx st.note_map i :=
                  hoi ▸ holdc
                rw [g1, c1]
                exact ⟨by omega, by omega⟩
              · have g1 : counts1.getD i 0 = st.note_counts.getD i 0 := by
                  rw [hc1, getD_decGuardAt_ne _ _ _ hoi]
                have r1 : countIdx st.note_map i =
                    countIdx (removeK st.note_map ⟨channel, note⟩) i := by
                  rw [hsplit, if_neg hoi, Nat.add_zero]
                rw [g1, c1]
                exact ⟨by omega, by omega⟩

theorem schedInv_note_off (st : MultiSynth) (channel note cmd : ℕ)
    (h : SchedInv st) : SchedInv (st.note_off channel note cmd).1 := by
  obtain ⟨hlen, hnd, hrange, hcnt⟩ := h
  cases hl : lookupK st.note_map ⟨channel, note⟩ with
  | none =>
      rw [note_off_absent cmd hl]
      exact ⟨hlen, hnd, hrange, hcnt⟩
  | some idx =>
      rw [note_off_present cmd hl]
      dsimp only [SchedInv]
      have hmem : (⟨channel, note⟩, idx) ∈ st.note_map := lookupK_mem hl
      have hidx : idx < st.note_counts.length := hrange _ hmem
      have hsplit := countIdx_removeK hnd hl
      have hpos : 0 < st.note_counts.getD idx 0 := by
        rw [(hcnt idx hidx).1]
        exact countIdx_pos_of_mem hmem
      refine ⟨by rw [length_decGuardAt]; exact hlen, nodupKeys_removeK _ hnd, ?_, ?_⟩
      · intro p hp
        rw [length_decGuardAt]
        exact hrange p (mem_removeK hp)
      · intro i hi
        rw [length_decGuardAt] at hi
        have hc := hcnt i hi
        by_cases hii : idx = i
        · subst hii
          rw [getD_decGuardAt_self _ _ hidx]
          have h2 := hsplit idx
          rw [if_pos rfl] at h2
          exact ⟨by omega, by omega⟩
        · rw [getD_decGuardAt_ne _ _ _ hii]
          have h2 := hsplit i
          rw [if_neg hii, Nat.add_zero] at h2
          exact ⟨by omega, hc.2⟩

/-! ### Properly paired note sequences (claim C7 machinery)

Events abstract the decoded note commands handled by `note_on` / `note_off`
on non-percussion routes: `(key, true)` is a note-on with positive velocity,
`(key, false)` a note-off. -/

/-- Process one abstract note event through the scheduler. -/
def stepNote (st : MultiSynth) (e : NoteKey × Bool) : MultiSynth :=
  if e.2 then
    (st.note_on e.1.channel e.1.note
      ((0x90 ||| e.1.channel) ||| (e.1.note <<< 8) ||| (64 <<< 16))).1
  else
    (st.note_off e.1.channel e.1.note (note_off_cmd e.1.channel e.1.note)).1

/-- Process a whole sequence of note events. -/
def runNotes (st : MultiSynth) (es : List (NoteKey × Bool)) : MultiSynth :=
  es.foldl stepNote st

/-- Balanced-parenthesis check over one key's on/off projection: every off
has a pending on and no on is left pending at the end. -/
def checkBal : List Bool → ℕ → Bool
  | [], d => d == 0
  | b :: rest, d =>
      if b then checkBal rest (d + 1)
      else decide (d ≠ 0) && checkBal rest (d - 1)

/-- A sequence of note events is properly paired when, for every key, its
on/off projection is balanced. -/
def properlyPaired (es : List (NoteKey × Bool)) : Prop :=
  ∀ k : NoteKey,
    checkBal ((es.filter (fun e => decide (e.1 = k))).map Prod.snd) 0 = true

theorem schedInv_stepNote (st : MultiSynth) (e : NoteKey × Bool)
    (h : SchedInv st) : SchedInv (stepNote st e) := by
  obtain ⟨⟨ch, n⟩, b⟩ := e
  cases b with
  | true => exact schedInv_note_on st ch n _ h
  | false => exact schedInv_note_off st ch n _ h

theorem schedInv_runNotes (st : MultiSynth) (es : List (NoteKey × Bool))
    (h : SchedInv st) : SchedInv (runNotes st es) := by
  induction es generalizing st with
  | nil => exact h
  | cons e rest ih => exact ih (stepNote st e) (schedInv_stepNote st e h)

theorem lookup_note_on_ne (st : MultiSynth) (channel note cmd : ℕ) (k : NoteKey)
    (h : (⟨channel, note⟩ : NoteKey) ≠ k) :
    lookupK (st.note_on channel note cmd).1.note_map k = lookupK st.note_map k := by
  cases hl : lookupK st.note_map ⟨channel, note⟩ with
  | none =>
      cases hf : find_slot st.note_counts st.max_voices with
      | none => rw [note_on_absent_none cmd hl hf]
      | some idx =>
          rw [note_on_absent_some cmd hl hf]
          exact lookupK_insertK_ne _ _ _ _ (fun he => h he.symm)
  | some old_idx =>
      cases hf : find_slot (decGuardAt st.note_counts old_idx) st.max_voices with
      | none => rw [note_on_present_none cmd hl hf]
      | some idx =>
          rw [note_on_present_some cmd hl hf]
          exact lookupK_insertK_ne _ _ _ _ (fun he => h he.symm)

theorem lookup_note_off_ne (st : MultiSynth) (channel note cmd : ℕ) (k : NoteKey)
    (h : (⟨channel, note⟩ : NoteKey) ≠ k) :
    lookupK (st.note_off channel note cmd).1.note_map k = lookupK st.note_map k := by
  cases hl : lookupK st.note_map ⟨channel, note⟩ with
  | none => rw [note_off_absent cmd hl]
  | some idx =>
      rw [note_off_present cmd hl]
      exact lookupK_removeK_ne _ _ _ (fun he => h he.symm)

theorem lookup_stepNote_ne (st : MultiSynth) (e : NoteKey × Bool) (k : NoteKey)
    (h : e.1 ≠ k) :
    lookupK (stepNote st e).note_map k = lookupK st.note_map k := by
  obtain ⟨⟨ch, n⟩, b⟩ := e
  cases b with
  | true => exact lookup_note_on_ne st ch n _ k h
  | false => exact lookup_note_off_ne st ch n _ k h

theorem lookup_stepNote_off (st : MultiSynth) (k : NoteKey)
    (hnd : NodupKeys st.note_map) :
    lookupK (stepNote st (k, false)).note_map k = none := by
  show lookupK (st.note_off k.channel k.note _).1.note_map k = none
  cases hl : lookupK st.note_map ⟨k.channel, k.note⟩ with
  | none =>
      rw [note_off_absent _ hl]
      exact hl
  | some idx =>
      rw [note_off_present _ hl]
      exact lookupK_removeK_self hnd

theorem lookup_runNotes_untouched (k : NoteKey) (es : List (NoteKey × Bool))
    (st : MultiSynth) (h : es.filter (fun e => decide (e.1 = k)) = []) :
    lookupK (runNotes st es).note_map k = lookupK st.note_map k := by
  induction es generalizing st with
  | nil => rfl
  | cons e rest ih =>
      rw [List.filter_cons] at h
      by_cases hk : e.1 = k
      · rw [if_pos (by simp [hk])] at h
        exact absurd h (List.cons_ne_nil _ _)
      · rw [if_neg (by simp [hk])] at h
        rw [runNotes, List.foldl_cons]
        rw [show rest.foldl stepNote (stepNote st e) = runNotes (stepNote st e) rest from rfl]
        rw [ih (stepNote st e) h]
        exact lookup_stepNote_ne st e k hk

theorem lookup_runNotes_none (k : NoteKey) (es : List (NoteKey × Bool))
    (st : MultiSynth) (hInv : SchedInv st) {e0 : NoteKey × Bool}
    (hlast : (es.filter (fun e => decide (e.1 = k))).getLast? = some e0)
    (hoff : e0.2 = false) :
    lookupK (runNotes st es).note_map k = none := by
  induction es generalizing st with
  | nil => simp at hlast
  | cons e rest ih =>
      have hInv' := schedInv_stepNote st e hInv
      rw [runNotes, List.foldl_cons]
      rw [show rest.foldl stepNote (stepNote st e) = runNotes (stepNote st e) rest from rfl]
      rw [List.filter_cons] at hlast
      by_cases hk : e.1 = k
      · rw [if_pos (by simp [hk])] at hlast
        cases hrest : rest.filter (fun e => decide (e.1 = k)) with
        | nil =>
            rw [hrest] at hlast
            simp at hlast
            subst hlast
            rw [lookup_runNotes_untouched k rest (stepNote st e) hrest]
            have he : e = (k, false) := by
              obtain ⟨k1, b1⟩ := e
              simp only at hk hoff
              rw [hk, hoff]
            rw [he]
            exact lookup_stepNote_off st k hInv.2.1
        | cons x xs =>
            rw [hrest] at hlast
            rw [List.getLast?_cons_cons] at hlast
            rw [← hrest] at hlast
            exact ih (stepNote st e) hInv' hlast
      · rw [if_neg (by simp [hk])] at hlast
        exact ih (stepNote st e) hInv' hlast

theorem checkBal_append_true (l : List Bool) (d : ℕ) :
    checkBal (l ++ [true]) d = false := by
  induction l generalizing d with
  | nil => rfl
  | cons b rest ih =>
      cases b with
      | true => simp [checkBal, ih]
      | false => simp [checkBal, ih]

theorem paired_last_off (es : List (NoteKey × Bool)) (hp : properlyPaired es)
    (k : NoteKey) :
    es.filter (fun e => decide (e.1 = k)) = [] ∨
      ∃ e0, (es.filter (fun e => decide (e.1 = k))).getLast? = some e0 ∧
        e0.2 = false := by
  have hk := hp k
  rcases List.eq_nil_or_concat (es.filter (fun e => decide (e.1 = k))) with h | ⟨L, b, h⟩
  · exact Or.inl h
  · right
    refine ⟨b, ?_, ?_⟩
    · rw [h, List.concat_eq_append, List.getLast?_concat]
    · by_contra hb
      have hb2 : b.2 = true := by
        cases hbv : b.2
        · exact absurd hbv hb
        · rfl
      rw [h, List.concat_eq_append, List.map_append] at hk
      simp only [List.map_cons, List.map_nil, hb2] at hk
      rw [checkBal_append_true] at hk
      exact Bool.false_ne_true hk

theorem note_map_nil_of_all_none {m : List (NoteKey × ℕ)}
    (h : ∀ k, lookupK m k = none) : m = [] := by
  cases m with
  | nil => rfl
  | cons p rest =>
      exfalso
      have := h p.1
      obtain ⟨k, v⟩ := p
      simp [lookupK] at this

theorem schedInv_mkNew (max_total_voices num_instances max_threads : ℕ)
    (has_drum : Bool) :
    SchedInv (MultiSynth.mkNew max_total_voices num_instances max_threads has_drum) := by
  refine ⟨by simp [MultiSynth.mkNew], ?_, ?_, ?_⟩
  · exact List.Pairwise.nil
  · intro p hp
    simp [MultiSynth.mkNew] at hp
  · intro i hi
    simp only [MultiSynth.mkNew]
    rw [getD_replicate_zero]
    exact ⟨rfl, Nat.zero_le _⟩

/-! ### Capacity-partition arithmetic (claim C3 groundwork) -/

theorem clamp_instances_pos (n t : ℕ) : 0 < clamp_instances n t := by
  rw [clamp_instances]
  by_cases h0 : (if n > t then t else n) = 0
  · rw [if_pos h0]
    exact Nat.one_pos
  · rw [if_neg h0]
    omega

theorem sum_range_voices (a r : ℕ) (n : ℕ) :
    ((List.range n).map (fun i => if i < r then a + 1 else a)).sum
      = n * a + min r n := by
  induction n with
  | zero => simp
  | succ m ih =>
      rw [List.range_succ, List.map_append, List.sum_append, ih]
      simp only [List.map_cons, List.map_nil, List.sum_cons, List.sum_nil]
      by_cases h : m < r
      · rw [if_pos h, Nat.succ_mul]
        omega
      · rw [if_neg h, Nat.succ_mul]
        omega

theorem sum_filter_pos (l : List ℕ) :
    (l.filter (fun v => decide (0 < v))).sum = l.sum := by
  induction l with
  | nil => rfl
  | cons x rest ih =>
      rw [List.filter_cons]
      by_cases h : 0 < x
      · rw [if_pos (by simpa using h)]
        simp [ih]
      · have hx : x = 0 := by omega
        rw [if_neg (by simpa using h)]
        simp [ih, hx]

theorem build_synths_sum (v n t : ℕ) : (build_synths v n t).sum = v := by
  rw [build_synths, sum_filter_pos, raw_voices, sum_range_voices]
  have hn : 0 < clamp_instances n t := clamp_instances_pos n t
  have hmod : v % clamp_instances n t < clamp_instances n t := Nat.mod_lt _ hn
  have hdm := Nat.div_add_mod v (clamp_instances n t)
  rw [min_eq_left (le_of_lt hmod)]
  omega

theorem build_synths_bound (v n t c : ℕ) (hc : c ∈ build_synths v n t) :
    0 < c ∧ c ≤ (v + clamp_instances n t - 1) / clamp_instances n t := by
  rw [build_synths, List.mem_filter] at hc
  have hpos : 0 < c := by simpa using hc.2
  refine ⟨hpos, ?_⟩
  rw [raw_voices] at hc
  obtain ⟨i, hi, hci⟩ := List.mem_map.mp hc.1
  have hcl_pos : 0 < clamp_instances n t := clamp_instances_pos n t
  have hdm := Nat.div_add_mod v (clamp_instances n t)
  by_cases hir : i < v % clamp_instances n t
  · rw [if_pos hir] at hci
    rw [← hci, Nat.le_div_iff_mul_le hcl_pos]
    have hmul : (v / clamp_instances n t + 1) * clamp_instances n t =
        clamp_instances n t * (v / clamp_instances n t) + clamp_instances n t := by
      ring
    omega
  · rw [if_neg hir] at hci
    rw [← hci]
    exact Nat.div_le_div_right (by omega)

/-! ### The invariant of claim C10 (loads within capacity, indices in range) -/

def SlotInv (st : MultiSynth) : Prop :=
  st.note_counts.length = st.max_voices.length ∧
  (∀ i, i < st.note_counts.length →
    st.note_counts.getD i 0 ≤ st.max_voices.getD i 0) ∧
  (∀ p ∈ st.note_map, p.2 < st.max_voices.length)

instance slotInv_decidable (st : MultiSynth) : Decidable (SlotInv st) :=
  inferInstanceAs (Decidable
    (st.note_counts.length = st.max_voices.length ∧
     (∀ i, i < st.note_counts.length →
       st.note_counts.getD i 0 ≤ st.max_voices.getD i 0) ∧
     (∀ p ∈ st.note_map, p.2 < st.max_voices.length)))

theorem cap_decGuardAt (counts max_voices : List ℕ) (old : ℕ)
    (hcap : ∀ i, i < counts.length →
      counts.getD i 0 ≤ max_voices.getD i 0) :
    ∀ i, i < (decGuardAt counts old).length →
      (decGuardAt counts old).getD i 0 ≤ max_voices.getD i 0 := by
  intro i hi
  rw [length_decGuardAt] at hi
  by_cases hio : old = i
  · subst hio
    rw [getD_decGuardAt_self _ _ hi]
    have := hcap old hi
    omega
  · rw [getD_decGuardAt_ne _ _ _ hio]
    exact hcap i hi

theorem slotInv_note_on (st : MultiSynth) (channel note cmd : ℕ)
    (h : SlotInv st) : SlotInv (st.note_on channel note cmd).1 := by
  obtain ⟨hlen, hcap, hrange⟩ := h
  cases hl : lookupK st.note_map ⟨channel, note⟩ with
  | none =>
      cases hf : find_slot st.note_counts st.max_voices with
      | none =>
          rw [note_on_absent_none cmd hl hf]
          exact ⟨hlen, hcap, hrange⟩
      | some idx =>
          rw [note_on_absent_some cmd hl hf]
          dsimp only [SlotInv]
          have hch := find_slot_sound hf
          have hidx : idx < st.note_counts.length := hch.1.1
          have hlt : st.note_counts.getD idx 0 < st.max_voices.getD idx 0 := hch.1.2
          refine ⟨by rw [length_incAt]; exact hlen, ?_, ?_⟩
          · intro i hi
            rw [length_incAt] at hi
            by_cases hii : idx = i
            · subst hii
              rw [getD_incAt_self _ _ hidx]
              omega
            · rw [getD_incAt_ne _ _ _ hii]
              exact hcap i hi
          · intro p hp
            rcases List.mem_cons.mp hp with hp | hp
            · rw [hp]
              rw [← hlen]
              exact hidx
            · exact hrange p (mem_removeK hp)
  | some old_idx =>
      cases hf : find_slot (decGuardAt st.note_counts old_idx) st.max_voices with
      | none =>
          rw [note_on_present_none cmd hl hf]
          dsimp only [SlotInv]
          refine ⟨by rw [length_decGuardAt]; exact hlen,
            cap_decGuardAt _ _ _ hcap, hrange⟩
      | some idx =>
          rw [note_on_present_some cmd hl hf]
          dsimp only [SlotInv]
          have hch := find_slot_sound hf
          have hidx : idx < (decGuardAt st.note_counts old_idx).length := hch.1.1
          have hlt : (decGuardAt st.note_counts old_idx).getD idx 0 <
              st.max_voices.getD idx 0 := hch.1.2
          have hcap1 := cap_decGuardAt st.note_counts st.max_voices old_idx hcap
          refine ⟨by rw [length_incAt, length_decGuardAt]; exact hlen, ?_, ?_⟩
          · intro i hi
            rw [length_incAt] at hi
            by_cases hii : idx = i
            · subst hii
              rw [getD_incAt_self _ _ hidx]
              omega
            · rw [getD_incAt_ne _ _ _ hii]
              exact hcap1 i hi
          · intro p hp
            rcases List.mem_cons.mp hp with hp | hp
            · rw [hp]
              rw [length_decGuardAt] at hidx
              rw [← hlen]
              exact hidx
            · exact hrange p (mem_removeK hp)

theorem slotInv_note_off (st : MultiSynth) (channel note cmd : ℕ)
    (h : SlotInv st) : SlotInv (st.note_off channel note cmd).1 := by
  obtain ⟨hlen, hcap, hrange⟩ := h
  cases hl : lookupK st.note_map ⟨channel, note⟩ with
  | none =>
      rw [note_off_absent cmd hl]
      exact ⟨hlen, hcap, hrange⟩
  | some idx =>
      rw [note_off_present cmd hl]
      dsimp only [SlotInv]
      refine ⟨by rw [length_decGuardAt]; exact hlen,
        cap_decGuardAt _ _ _ hcap, ?_⟩
      intro p hp
      exact hrange p (mem_removeK hp)

theorem slotInv_queue (st : MultiSynth) (cmd : ℕ) (h : SlotInv st) :
    SlotInv (st.queue_midi_cmd cmd).1 := by
  unfold MultiSynth.queue_midi_cmd
  dsimp only
  split
  · split
    · exact h
    · exact h
  · split
    · split
      · exact slotInv_note_off st _ _ _ h
      · exact slotInv_note_on st _ _ _ h
    · split
      · exact slotInv_note_off st _ _ _ h
      · split
        · exact h
        · exact h

theorem slotInv_set_max_polyphony (st : MultiSynth) (v : ℕ) :
    SlotInv (st.set_max_polyphony v).1 := by
  refine ⟨by simp [MultiSynth.set_max_polyphony], ?_, ?_⟩
  · intro i hi
    simp only [MultiSynth.set_max_polyphony]
    rw [getD_replicate_zero]
    exact Nat.zero_le _
  · intro p hp
    simp [MultiSynth.set_max_polyphony] at hp

theorem slotInv_set_num_instances (st : MultiSynth) (n : ℕ) :
    SlotInv (st.set_num_instances n).1 := by
  refine ⟨by simp [MultiSynth.set_num_instances], ?_, ?_⟩
  · intro i hi
    simp only [MultiSynth.set_num_instances]
    rw [getD_replicate_zero]
    exact Nat.zero_le _
  · intro p hp
    simp [MultiSynth.set_num_instances] at hp

/-! ## Claim theorems -/

/-- C1 (counterexample).  The routing table is not a LIFO stack of slot
indices per key: from a fresh scheduler with one slot of capacity 2, issuing
note-on (ch 0, note 60, vel 64), note-on (vel 80), note-off, note-off
forwards a synthesized note-off for the first assignment *during the second
note-on* (second element of the forwarded-command log), and the fourth
command (the second note-off) forwards nothing — contradicting "processing a
note-on for an already-sounding key pushes a second slot index without
releasing the first, and each note-off pops and releases the most recently
pushed slot index". -/
theorem note_stack_lifo_counterexample :
    (run_cmds (MultiSynth.mkNew 2 1 8 false)
        [0x90 + 60 * 256 + 64 * 65536, 0x90 + 60 * 256 + 80 * 65536,
         0x80 + 60 * 256 + 64 * 65536, 0x80 + 60 * 256]).2
      = [(0, 0x90 + 60 * 256 + 64 * 65536), (0, note_off_cmd 0 60),
         (0, 0x90 + 60 * 256 + 80 * 65536), (0, 0x80 + 60 * 256 + 64 * 65536)]
    ∧ (MultiSynth.queue_midi_cmd
        (run_cmds (MultiSynth.mkNew 2 1 8 false)
          [0x90 + 60 * 256 + 64 * 65536, 0x90 + 60 * 256 + 80 * 65536,
           0x80 + 60 * 256 + 64 * 65536]).1 (0x80 + 60 * 256)).2 = [] := by
  constructor
  · decide
  · decide

/-- C1 (amended).  The routing table keeps a *single* slot index per
NoteKey, the most recent assignment.  For a key currently routed to
`old_idx`: a note-on first forwards a synthesized note-off to `old_idx`
(the first element of its forwarded-command log) and then overwrites the
entry; a note-off removes the entry, forwards the off command to `old_idx`,
and decrements its load, so the key is no longer in the table (no dangling
entry); and a note-off for an unmapped key forwards nothing and changes
nothing.  Hence two note-ons followed by two note-offs release the first
engine assignment at the second trigger and the second assignment at the
first off; the second off is a no-op. -/
theorem note_map_single_entry_retrigger (st : MultiSynth)
    (channel note cmd offcmd old_idx : ℕ)
    (hnd : NodupKeys st.note_map)
    (hl : lookupK st.note_map ⟨channel, note⟩ = some old_idx) :
    ((st.note_on channel note cmd).2).take 1
      = [(old_idx, note_off_cmd channel note)] ∧
    (st.note_off channel note offcmd).2 = [(old_idx, offcmd)] ∧
    lookupK (st.note_off channel note offcmd).1.note_map ⟨channel, note⟩ = none ∧
    (∀ st2 : MultiSynth, lookupK st2.note_map ⟨channel, note⟩ = none →
      st2.note_off channel note offcmd = (st2, [])) := by
  refine ⟨?_, ?_, ?_, ?_⟩
  · cases hf : find_slot (decGuardAt st.note_counts old_idx) st.max_voices with
    | none =>
        rw [note_on_present_none cmd hl hf]
        rfl
    | some idx =>
        rw [note_on_present_some cmd hl hf]
        rfl
  · rw [note_off_present offcmd hl]
  · rw [note_off_present offcmd hl]
    exact lookupK_removeK_self hnd
  · intro st2 hl2
    exact note_off_absent offcmd hl2

theorem note_map_single_entry_retrigger_witness :
    ((MultiSynth.note_on ⟨[(⟨0, 60⟩, 0)], [1], [2], false, 2, 1⟩ 0 60 777).2).take 1
      = [(0, note_off_cmd 0 60)] :=
  (note_map_single_entry_retrigger ⟨[(⟨0, 60⟩, 0)], [1], [2], false, 2, 1⟩
    0 60 777 888 0 (by decide) (by decide)).1

/-- C2.  The slot `note_on` selects for an admitted note-on (the
`enumerate`/`filter`/`min_by_key` chain, modelled by `find_slot`) is exactly
the spec's choice: an eligible slot (load strictly below capacity) whose
load is minimal, with ties broken by the lowest slot index (`chosen_slot`).
The iff also gives determinism: `find_slot` is a function of the load
vector, so the same loads always produce the same routing, and any two
slots satisfying `chosen_slot` coincide. -/
theorem note_on_selects_lowest_load_slot (counts max_voices : List ℕ) (i : ℕ) :
    find_slot counts max_voices = some i ↔ chosen_slot counts max_voices i := by
  constructor
  · exact find_slot_sound
  · intro hch
    have hsome := find_slot_isSome hch.1
    cases hf : find_slot counts max_voices with
    | none => rw [hf] at hsome; simp at hsome
    | some j =>
        have hchj := find_slot_sound hf
        have h1 := hch.2 j hchj.1
        have h2 := hchj.2 i hch.1
        have hij : i = j := by omega
        rw [hij]

theorem note_on_selects_lowest_load_slot_witness :
    chosen_slot [1, 0, 2] [2, 2, 2] 1 :=
  (note_on_selects_lowest_load_slot [1, 0, 2] [2, 2, 2] 1).mp (by decide)

/-- C3.  `build_synths` first clamps the requested instance count (to the
available parallel units, then up to 1), assigns `V / n` voices per
instance with one extra for the first `V % n` instances, and drops
zero-capacity instances; the realized capacities are all positive, sum to
the voice budget `V`, and are each at most `ceil(V / n) = (V + n - 1) / n`
for the clamped count `n`. -/
theorem build_synths_partition (v n t : ℕ) :
    build_synths v n t =
      (raw_voices v (clamp_instances n t)).filter (fun c => decide (0 < c)) ∧
    (build_synths v n t).sum = v ∧
    (∀ c, c ∈ build_synths v n t →
      0 < c ∧ c ≤ (v + clamp_instances n t - 1) / clamp_instances n t) :=
  ⟨rfl, build_synths_sum v n t, fun c hc => build_synths_bound v n t c hc⟩

theorem build_synths_partition_witness :
    (build_synths 10 3 8).sum = 10 ∧
    (0 < 4 ∧ 4 ≤ (10 + clamp_instances 3 8 - 1) / clamp_instances 3 8) :=
  ⟨(build_synths_partition 10 3 8).2.1,
   (build_synths_partition 10 3 8).2.2 4 (by decide)⟩

/-- C4 (counterexample).  `Limiter::new` contains no check on the sample
rate: construction with sample rate 0 (and otherwise valid parameters)
succeeds, contradicting "construction fails whenever ... sample rate not
> 0". -/
theorem limiter_new_accepts_zero_sample_rate :
    (limiter_new 0 (-6) 100 20).isSome = true := by
  rw [limiter_new, if_pos (by norm_num)]
  rfl

/-- C4 (amended).  `Limiter::new` fails (assertion panic) exactly when the
threshold in dB is positive, the release time is not positive, or the
lookahead time is not positive; the sample rate is *not* validated.  On
success the linear threshold is `10^(dB/20)`, both decay coefficients are
`exp(-1 / (timeMs/1000 * sampleRate))`, the peak envelope starts at 0 and
the smoothed gain at 1. -/
theorem limiter_new_validation
    (sample_rate threshold_db release_time_ms lookahead_ms : ℝ) :
    (threshold_db ≤ 0 ∧ release_time_ms > 0 ∧ lookahead_ms > 0 →
      limiter_new sample_rate threshold_db release_time_ms lookahead_ms =
        some
          { sample_rate := sample_rate
            threshold_db := threshold_db
            threshold := (10 : ℝ) ^ (threshold_db / 20)
            release_coef := Real.exp (-1 / (release_time_ms / 1000 * sample_rate))
            lookahead_coef := Real.exp (-1 / (lookahead_ms / 1000 * sample_rate))
            peak_envelope := 0
            smoothed_gain := 1 }) ∧
    (¬ (threshold_db ≤ 0 ∧ release_time_ms > 0 ∧ lookahead_ms > 0) →
      limiter_new sample_rate threshold_db release_time_ms lookahead_ms = none) := by
  constructor
  · intro h
    rw [limiter_new, if_pos h]
  · intro h
    rw [limiter_new, if_neg h]

theorem limiter_new_validation_witness :
    ((-6 : ℝ) ≤ 0 ∧ (100 : ℝ) > 0 ∧ (20 : ℝ) > 0) ∧
      limiter_new 0 (-6) 100 20 =
        some
          { sample_rate := 0
            threshold_db := -6
            threshold := (10 : ℝ) ^ ((-6 : ℝ) / 20)
            release_coef := Real.exp (-1 / ((100 : ℝ) / 1000 * 0))
            lookahead_coef := Real.exp (-1 / ((20 : ℝ) / 1000 * 0))
            peak_envelope := 0
            smoothed_gain := 1 } :=
  ⟨by norm_num, (limiter_new_validation 0 (-6) 100 20).1 (by norm_num)⟩

/-- C5 (code bug).  At the failing input — two limiter instances (threshold
1/2, both coefficients 1/2, fresh state) over the stereo (C = 2)
interleaved buffer [0, 2, 1, 0] — the renderer loop's suffix slicing
(`limiter.process(&mut synth_buffer[i..])`, `apply_limiters`) produces
[0, 1/2, 3/8, 0], while the intended strided per-channel contract
(`apply_limiters_strided`) produces [0, 1/2, 1/2, 0]: limiter 0 consumes
channel 1's sample 2.0 and so wrongly attenuates channel 0's second sample
(index 2) to 3/8 instead of 1/2. -/
theorem limiter_suffix_slicing_bug :
    apply_limiters [⟨1/2, 1/2, 1/2, 0, 1⟩, ⟨1/2, 1/2, 1/2, 0, 1⟩] [0, 2, 1, 0]
      = [0, 1/2, 3/8, 0] ∧
    apply_limiters_strided [⟨1/2, 1/2, 1/2, 0, 1⟩, ⟨1/2, 1/2, 1/2, 0, 1⟩]
        [0, 2, 1, 0]
      = [0, 1/2, 1/2, 0] ∧
    apply_limiters [⟨1/2, 1/2, 1/2, 0, 1⟩, ⟨1/2, 1/2, 1/2, 0, 1⟩] [0, 2, 1, 0]
      ≠ apply_limiters_strided [⟨1/2, 1/2, 1/2, 0, 1⟩, ⟨1/2, 1/2, 1/2, 0, 1⟩]
          [0, 2, 1, 0] := by
  have h1 : apply_limiters [⟨1/2, 1/2, 1/2, 0, 1⟩, ⟨1/2, 1/2, 1/2, 0, 1⟩]
      [0, 2, 1, 0] = [0, 1/2, 3/8, 0] := by
    norm_num [apply_limiters, enum_counts, Limiter.process,
      Limiter.process_sample, abs_of_nonneg]
  have h2 : apply_limiters_strided [⟨1/2, 1/2, 1/2, 0, 1⟩, ⟨1/2, 1/2, 1/2, 0, 1⟩]
      [0, 2, 1, 0] = [0, 1/2, 1/2, 0] := by
    norm_num [apply_limiters_strided, strided_channel, enum_counts,
      Limiter.process, Limiter.process_sample, abs_of_nonneg]
  refine ⟨h1, h2, ?_⟩
  intro heq
  rw [h1, h2] at heq
  norm_num at heq

/-- C6.  For every limiter state and input sample, the loop body of
`Limiter::process` performs exactly the spec's per-sample sequence: decay
the peak envelope by the lookahead coefficient and raise it to the sample's
absolute value if larger; target gain 1 when the envelope is at or below
the linear threshold, else threshold/envelope; snap the smoothed gain down
to a smaller target in one step, otherwise
`releaseCoef*smoothed + (1-releaseCoef)*target`; output the input sample
times the resulting smoothed gain (`limiter_doc_step` is that sequence
verbatim). -/
theorem limiter_per_sample_sequence (l : Limiter) (s : ℚ) :
    l.process_sample s = limiter_doc_step l s :=
  process_sample_eq_doc_step l s

/-- C7.  Starting from a freshly constructed scheduler, processing any
properly paired sequence of note-on/note-off events on non-percussion
routes leaves the routing table empty and every load counter at zero. -/
theorem noteRouting_empty_after_paired (v n t : ℕ) (drum : Bool)
    (es : List (NoteKey × Bool)) (hp : properlyPaired es) :
    (runNotes (MultiSynth.mkNew v n t drum) es).note_map = [] ∧
    (∀ i, i < (runNotes (MultiSynth.mkNew v n t drum) es).note_counts.length →
      (runNotes (MultiSynth.mkNew v n t drum) es).note_counts.getD i 0 = 0) := by
  have hInv0 := schedInv_mkNew v n t drum
  have hInvf := schedInv_runNotes _ es hInv0
  have hmap : (runNotes (MultiSynth.mkNew v n t drum) es).note_map = [] := by
    apply note_map_nil_of_all_none
    intro k
    rcases paired_last_off es hp k with h | ⟨e0, hlast, hoff⟩
    · rw [lookup_runNotes_untouched k es _ h]
      rfl
    · exact lookup_runNotes_none k es _ hInv0 hlast hoff
  refine ⟨hmap, ?_⟩
  intro i hi
  have hc := (hInvf.2.2.2 i hi).1
  rw [hmap] at hc
  simpa [countIdx] using hc

theorem noteRouting_empty_after_paired_witness :
    (runNotes (MultiSynth.mkNew 4 2 8 false)
      [(⟨0, 60⟩, true), (⟨0, 60⟩, false)]).note_map = [] ∧
    (runNotes (MultiSynth.mkNew 4 2 8 false)
      [(⟨0, 60⟩, true), (⟨0, 60⟩, false)]).note_counts.getD 0 0 = 0 := by
  have hp : properlyPaired [((⟨0, 60⟩ : NoteKey), true), (⟨0, 60⟩, false)] := by
    intro k
    by_cases hk : (⟨0, 60⟩ : NoteKey) = k
    · rw [← hk]
      decide
    · have hd : (decide ((⟨0, 60⟩ : NoteKey) = k)) = false := decide_eq_false hk
      simp [List.filter, hd, checkBal]
  have h := noteRouting_empty_after_paired 4 2 8 false _ hp
  exact ⟨h.1, h.2 0 (by decide)⟩

/-- C8 (counterexample).  A note-on whose key is already routed is *not*
dropped even when every slot's load equals its capacity: with one slot of
capacity 1 at load 1 and (ch 0, note 60) mapped to it, a note-on for that
key forwards a synthesized note-off followed by the note-on command to the
engine — contradicting "the command is forwarded to no engine". -/
theorem starved_retrigger_not_dropped :
    (MultiSynth.queue_midi_cmd ⟨[(⟨0, 60⟩, 0)], [1], [1], false, 1, 1⟩
        (0x90 + 60 * 256 + 64 * 65536)).2
      = [(0, note_off_cmd 0 60), (0, 0x90 + 60 * 256 + 64 * 65536)] := by
  decide

/-- C8 (amended).  A note-on whose key has *no* current routing entry and
for which no eligible slot exists (every slot's load at or above its
capacity) is silently dropped: the command is forwarded to no engine, no
routing entry is created, no load counter changes, and no error is raised
(the state is returned unchanged with an empty forwarded-command log). -/
theorem note_on_starved_dropped (st : MultiSynth) (channel note cmd : ℕ)
    (hl : lookupK st.note_map ⟨channel, note⟩ = none)
    (hfull : ∀ j, j < st.note_counts.length →
      st.max_voices.getD j 0 ≤ st.note_counts.getD j 0) :
    st.note_on channel note cmd = (st, []) := by
  apply note_on_absent_none cmd hl
  apply find_slot_none
  intro j hj
  exact absurd hj.2 (not_lt.mpr (hfull j hj.1))

theorem note_on_starved_dropped_witness :
    MultiSynth.note_on ⟨[], [1], [1], false, 1, 1⟩ 0 60 999
      = (⟨[], [1], [1], false, 1, 1⟩, []) :=
  note_on_starved_dropped ⟨[], [1], [1], false, 1, 1⟩ 0 60 999 rfl (by decide)

/-- C9.  Processing an all-zero buffer of any length from *any* limiter
state (in particular any state reachable from prior processing) produces an
all-zero output buffer. -/
theorem process_silence (l : Limiter) (n : ℕ) :
    (l.process (List.replicate n 0)).2 = List.replicate n 0 := by
  induction n generalizing l with
  | zero => rfl
  | succ m ih =>
      rw [List.replicate_succ]
      show ((l.process_sample 0).1.process (List.replicate m 0)).2.cons
          (l.process_sample 0).2 = _
      rw [process_sample_zero, ih]

/-- C10.  Every scheduler operation — queueing a command, rendering
(`fill_buffer`, which touches no bookkeeping field), and both rebuild
operations — preserves the invariant that the load and capacity vectors
have equal length, every load is at most its capacity (loads are naturals,
so never negative; decrements are guarded), and every slot index stored in
the routing table is strictly below the number of realized instances. -/
theorem scheduler_ops_preserve_invariant (st : MultiSynth) (cmd v n : ℕ)
    (h : SlotInv st) :
    SlotInv (st.queue_midi_cmd cmd).1 ∧
    SlotInv (st.set_max_polyphony v).1 ∧
    SlotInv (st.set_num_instances n).1 ∧
    SlotInv st.fill_buffer :=
  ⟨slotInv_queue st cmd h, slotInv_set_max_polyphony st v,
   slotInv_set_num_instances st n, h⟩

theorem scheduler_ops_preserve_invariant_witness :
    SlotInv ((MultiSynth.mkNew 2 1 8 false).queue_midi_cmd
        (0x90 + 60 * 256 + 64 * 65536)).1 ∧
    SlotInv ((MultiSynth.mkNew 2 1 8 false).set_max_polyphony 3).1 ∧
    SlotInv ((MultiSynth.mkNew 2 1 8 false).set_num_instances 2).1 ∧
    SlotInv (MultiSynth.mkNew 2 1 8 false).fill_buffer :=
  scheduler_ops_preserve_invariant (MultiSynth.mkNew 2 1 8 false)
    (0x90 + 60 * 256 + 64 * 65536) 3 2 (by decide)
